import Mathlib

/-!
# Verification of the `packable` binary serialization core

A shallow embedding of `src/lib.rs`: the `Packable` trait (pack / size /
unpack), the numeric codecs generated by `impl_packable_numerique!`, the
`[u8; N]` byte-block codec, the `Flag` bit container, the error types, and
the `pack!` / `unpack!` sequencer macros.

Modelling conventions:
* a Rust byte is a `Nat` (meaningful values `< 256`); buffers (`Vec<u8>`)
  are `List Nat`;
* each numeric type is identified by a `NumType` tag; a value of the type
  is carried as its bit pattern, a `Nat` below `2 ^ (8 * byte width)`
  (for signed integers this is the two's-complement pattern, for floats the
  IEEE bit pattern — `to_le_bytes` / `from_le_bytes` act on exactly that);
* Rust `&mut self` decode is modelled functionally: `unpack` takes the
  current value and returns the new one in an `Outcome`;
* a Rust panic (out-of-range slice index) is the explicit `Outcome.panic`
  constructor, distinct from returning a `PackableError`.
-/

namespace Packable

/-- Little-endian byte decomposition of `v` into exactly `w` bytes, the model
of `to_le_bytes` on a `w`-byte integer bit pattern. -/
def toBytesLE : Nat → Nat → List Nat
  | 0, _ => []
  | w + 1, v => (v % 256) :: toBytesLE w (v / 256)

/-- Little-endian recomposition of a byte list, the model of
`from_le_bytes`. -/
def fromBytesLE : List Nat → Nat
  | [] => 0
  | b :: rest => b + 256 * fromBytesLE rest

theorem toBytesLE_length (w v : Nat) : (toBytesLE w v).length = w := by
  induction w generalizing v with
  | zero => rfl
  | succ k ih => simp [toBytesLE, ih]

theorem fromBytesLE_toBytesLE (w v : Nat) (h : v < 256 ^ w) :
    fromBytesLE (toBytesLE w v) = v := by
  induction w generalizing v with
  | zero =>
    simp [Nat.pow_zero] at h
    simp [toBytesLE, fromBytesLE, h]
  | succ k ih =>
    have hdiv : v / 256 < 256 ^ k := by
      rw [Nat.div_lt_iff_lt_mul (by norm_num : 0 < 256)]
      calc v < 256 ^ (k + 1) := h
        _ = 256 ^ k * 256 := by ring
    simp only [toBytesLE, fromBytesLE, ih (v / 256) hdiv]
    omega

/-- `enum ErrorKind` from `src/lib.rs`. -/
inductive ErrorKind where
  | TryFromSliceError
  | BufferLengthError
deriving DecidableEq, Repr

/-- `struct PackableError { error_kind, data }` from `src/lib.rs`; `data` is
the free-text diagnostic `String`. -/
structure PackableError where
  error_kind : ErrorKind
  data : String
deriving DecidableEq, Repr

/-- The diagnostic string built by the `unpack!` macro:
`format!("except {} bytes and get {}", size, buffer.len())`. -/
def errorData (size actual : Nat) : String :=
  "except " ++ toString size ++ " bytes and get " ++ toString actual

/-- Result of one `Packable::unpack` call on a value of type `α`:
`ok` carries the overwritten target (`&mut self` modelled functionally),
`err` a returned `PackableError`, and `panic` a Rust panic (out-of-range
slice index). -/
inductive Outcome (α : Type) where
  | ok : α → Outcome α
  | err : PackableError → Outcome α
  | panic : Outcome α
deriving DecidableEq, Repr

/-- The twelve numeric types instantiated by `impl_packable_numerique!`. -/
inductive NumType where
  | u8 | u16 | u32 | u64 | u128
  | i8 | i16 | i32 | i64 | i128
  | f32 | f64
deriving DecidableEq, Repr

/-- `mem::size_of::<T>()` for each instantiated numeric type. -/
def NumType.sizeOf : NumType → Nat
  | .u8 => 1 | .u16 => 2 | .u32 => 4 | .u64 => 8 | .u128 => 16
  | .i8 => 1 | .i16 => 2 | .i32 => 4 | .i64 => 8 | .i128 => 16
  | .f32 => 4 | .f64 => 8

/-- Whether the numeric type is a signed integer (two's-complement value
interpretation of its bit pattern). -/
def NumType.signed : NumType → Bool
  | .i8 | .i16 | .i32 | .i64 | .i128 => true
  | _ => false

/-- A value of one of the `Packable`-implementing types of `src/lib.rs`:
a numeric value (carried as its bit pattern), a `[u8; N]` byte block
(carried as its byte list, `N` being the length), or a `Flag` (carried as
its `base` byte). -/
inductive PValue where
  | num (t : NumType) (bits : Nat)
  | block (arr : List Nat)
  | flag (base : Nat)
deriving DecidableEq, Repr

/-- The numeric `pack` body of `impl_packable_numerique!`:
`to_le_bytes().to_vec()` if little-endian, else `to_be_bytes().to_vec()`
(the little-endian byte list reversed). -/
def numPack (t : NumType) (bits : Nat) (le : Bool) : List Nat :=
  if le then toBytesLE t.sizeOf bits
  else (toBytesLE t.sizeOf bits).reverse

/-- The bit pattern read by a numeric `unpack` from the front bytes under
the requested order: `from_le_bytes` or `from_be_bytes` of
`data[0..size]`. -/
def readNum (t : NumType) (data : List Nat) (le : Bool) : Nat :=
  if le then fromBytesLE (data.take t.sizeOf)
  else fromBytesLE (data.take t.sizeOf).reverse

/-- The numeric `unpack` body of `impl_packable_numerique!`: the slice
expression `data[0..self.size()]` panics when `data.len() < size` (so the
`TryFromSliceError` path after it is unreachable: the sliced front always
has exactly `size` bytes); otherwise the target is overwritten with
`from_le_bytes` / `from_be_bytes` of that front slice. -/
def numUnpack (t : NumType) (data : List Nat) (le : Bool) : Outcome Nat :=
  if data.length < t.sizeOf then .panic
  else .ok (readNum t data le)

namespace PValue

/-- `Packable::pack(&self, litle_endian)`. Numeric: the
`impl_packable_numerique!` body. Block: `self.to_vec()`, the flag ignored.
Flag: delegates to the base byte's (`u8`) pack. -/
def pack : PValue → Bool → List Nat
  | .num t bits, le => Packable.numPack t bits le
  | .block arr, _ => arr
  | .flag base, le => Packable.numPack .u8 base le

/-- `Packable::size(&self)`. Numeric: `mem::size_of`; block: `self.len()`;
flag: the base byte's (`u8`) size. -/
def size : PValue → Nat
  | .num t _ => t.sizeOf
  | .block arr => arr.length
  | .flag _ => NumType.sizeOf .u8

/-- `Packable::unpack(&mut self, data, litle_endian)`.

Numeric: the `impl_packable_numerique!` body (`numUnpack`).

Block (`[u8; N]`): `&mut data[..self.size()]` panics when the buffer is
shorter than `N`; otherwise `clone_from_slice` overwrites every position
with the first `N` buffer bytes.

Flag: delegates to the base byte's (`u8`) unpack. -/
def unpack : PValue → List Nat → Bool → Outcome PValue
  | .num t _, data, le =>
    match Packable.numUnpack t data le with
    | .ok bits => .ok (.num t bits)
    | .err e => .err e
    | .panic => .panic
  | .block arr, data, _ =>
    if data.length < arr.length then .panic
    else .ok (.block (data.take arr.length))
  | .flag _, data, le =>
    match Packable.numUnpack .u8 data le with
    | .ok bits => .ok (.flag bits)
    | .err e => .err e
    | .panic => .panic

end PValue

/-- `struct Flag { base: u8 }`; `base` is a byte (`< 256` in any state
reachable through the API). -/
structure Flag where
  base : Nat
deriving DecidableEq, Repr

namespace Flag

/-- `Flag::default()`: `#[derive(Default)]` zeroes the base byte. -/
def default : Flag := ⟨0⟩

/-- `Flag::set(&mut self, id, value)`: `base | (0x1 << id)` when setting,
`base & !(0x1 << id)` when clearing; `!` is bitwise complement on `u8`,
i.e. `255 XOR mask`. -/
def set (f : Flag) (id : Nat) (value : Bool) : Flag :=
  if value then ⟨f.base ||| (1 <<< id)⟩
  else ⟨f.base &&& (255 ^^^ (1 <<< id))⟩

/-- `Flag::get(&self, id)`: `(base & (0x1 << id)) > 0`. -/
def get (f : Flag) (id : Nat) : Bool :=
  f.base &&& (1 <<< id) > 0

end Flag

/-- Result of one `unpack!` sequencer call. The macro mutates the fields
and the caller's buffer in place; the model returns their final state in
every case: `ok fields buffer` on success, `err e fields buffer` when the
closure returns `Err(e)` (fields already processed are updated, later ones
untouched; `buffer` is the caller's `Vec` at the early return), `panic`
if a field's `unpack` panicked. -/
inductive SeqResult where
  | ok : List PValue → List Nat → SeqResult
  | err : PackableError → List PValue → List Nat → SeqResult
  | panic : SeqResult
deriving DecidableEq, Repr

/-- The `pack!` macro: starting from an empty `Vec`, extend it with
`Packable::pack(&x, litle_endian)` for each argument in order. -/
def packSeq (le : Bool) (xs : List PValue) : List Nat :=
  xs.foldl (fun acc x => acc ++ x.pack le) []

/-- The `unpack!` macro body, one field at a time. For each field `x`:
`size = Packable::size(&x)`; if `buffer.len() >= size`, then
`split_buf = buffer.split_off(size)` (the buffer keeps its first `size`
bytes, `split_buf` the rest), `Packable::unpack(&mut x, buffer, le)?`
(on `Err` the early return leaves the caller's buffer holding the front
segment), then `*buffer = split_buf`; otherwise return
`Err(PackableError { BufferLengthError, "except {size} bytes and get
{buffer.len()}" })`. -/
def unpackSeq (le : Bool) (buffer : List Nat) : List PValue → SeqResult
  | [] => .ok [] buffer
  | x :: rest =>
    let size := x.size
    if buffer.length ≥ size then
      let split_buf := buffer.drop size
      match x.unpack (buffer.take size) le with
      | .ok x' =>
        match unpackSeq le split_buf rest with
        | .ok xs' buf' => .ok (x' :: xs') buf'
        | .err e xs' buf' => .err e (x' :: xs') buf'
        | .panic => .panic
      | .err e => .err e (x :: rest) (buffer.take size)
      | .panic => .panic
    else
      .err ⟨.BufferLengthError, errorData size buffer.length⟩ (x :: rest) buffer

/-- Whether an `Outcome` is a returned `PackableError` (as opposed to a
successful overwrite or a panic). -/
def Outcome.isErr : Outcome PValue → Bool
  | .err _ => true
  | _ => false

/-- The caller's buffer after an `unpack!` call returns (success or error);
`panic` never returns, the `[]` there is a placeholder. -/
def SeqResult.remBuffer : SeqResult → List Nat
  | .ok _ b => b
  | .err _ _ b => b
  | .panic => []

/-- Two's-complement `w`-byte bit pattern of a signed integer value `v`:
`iN::to_le_bytes` serializes exactly this pattern. -/
def intToBits (w : Nat) (v : Int) : Nat :=
  (v % ((2 : Int) ^ (8 * w))).toNat

/-- Signed-integer value of a `w`-byte bit pattern, as recovered by
`iN::from_le_bytes`. -/
def bitsToInt (w : Nat) (u : Nat) : Int :=
  if u < 2 ^ (8 * w - 1) then (u : Int) else (u : Int) - 2 ^ (8 * w)

/-- Spec-side per-field decoded value: what a field becomes when decoded
from a buffer holding at least `size` bytes (the sequencer always passes
exactly `size`). -/
def decodedOf : PValue → List Nat → Bool → PValue
  | .num t _, data, le => .num t (readNum t data le)
  | .block arr, data, _ => .block (data.take arr.length)
  | .flag _, data, le => .flag (readNum .u8 data le)

/-- Spec-side formulation of the sequencer's field decoding: each field is
decoded from its own size-determined segment of the buffer, in order. -/
def decodeFields (le : Bool) (buffer : List Nat) : List PValue → List PValue
  | [] => []
  | f :: rest =>
    decodedOf f (buffer.take f.size) le :: decodeFields le (buffer.drop f.size) rest

/-- Total byte size declared by a field list. -/
def sumSizes (fs : List PValue) : Nat :=
  (fs.map PValue.size).sum

theorem numPack_length (t : NumType) (bits : Nat) (le : Bool) :
    (numPack t bits le).length = t.sizeOf := by
  unfold numPack
  split <;> simp [toBytesLE_length]

/-- A numeric `unpack` on the bytes its own `pack` produced recovers the
packed bit pattern, for either order. -/
theorem numUnpack_numPack (t : NumType) (bits : Nat) (le : Bool)
    (h : bits < 2 ^ (8 * t.sizeOf)) :
    numUnpack t (numPack t bits le) le = .ok bits := by
  have h256 : bits < 256 ^ t.sizeOf := by
    have : (2 : Nat) ^ (8 * t.sizeOf) = 256 ^ t.sizeOf := by
      rw [Nat.pow_mul]
    omega
  have hlen := numPack_length t bits le
  unfold numUnpack readNum numPack
  cases le with
  | true =>
    simp only [if_true, toBytesLE_length]
    rw [if_neg (by omega)]
    rw [List.take_of_length_le (by simp [toBytesLE_length])]
    rw [fromBytesLE_toBytesLE _ _ h256]
  | false =>
    simp only [if_false, Bool.false_eq_true, List.length_reverse, toBytesLE_length]
    rw [if_neg (by omega)]
    rw [List.take_of_length_le (by simp [toBytesLE_length])]
    rw [List.reverse_reverse, fromBytesLE_toBytesLE _ _ h256]

theorem intToBits_lt (w : Nat) (v : Int) : intToBits w v < 2 ^ (8 * w) := by
  unfold intToBits
  have hpos : (0 : Int) < (2 : Int) ^ (8 * w) := by positivity
  have hmod : v % ((2 : Int) ^ (8 * w)) < (2 : Int) ^ (8 * w) :=
    Int.emod_lt_of_pos v hpos
  have hcast : ((2 : Int) ^ (8 * w)) = ((2 ^ (8 * w) : Nat) : Int) := by
    push_cast
    ring
  omega

/-- The signed interpretation inverts the two's-complement pattern on the
representable range. -/
theorem bitsToInt_intToBits (w : Nat) (v : Int) (hw : 0 < w)
    (h1 : -(2 ^ (8 * w - 1)) ≤ v) (h2 : v < 2 ^ (8 * w - 1)) :
    bitsToInt w (intToBits w v) = v := by
  have h8 : 8 * w - 1 + 1 = 8 * w := by omega
  have hsplit : (2 : Int) ^ (8 * w) = 2 ^ (8 * w - 1) * 2 := by
    rw [← pow_succ, h8]
  have hsplitN : (2 : Nat) ^ (8 * w) = 2 ^ (8 * w - 1) * 2 := by
    rw [← pow_succ, h8]
  have hcast : ((2 : Int) ^ (8 * w - 1)) = ((2 ^ (8 * w - 1) : Nat) : Int) := by
    push_cast
    ring
  rcases le_or_lt 0 v with hv | hv
  · have hmod : v % ((2 : Int) ^ (8 * w)) = v := by
      apply Int.emod_eq_of_lt hv
      omega
    unfold bitsToInt intToBits
    rw [hmod]
    rw [if_pos (by omega)]
    omega
  · have hmod : v % ((2 : Int) ^ (8 * w)) = v + 2 ^ (8 * w) := by
      have hrw : (v + (2 : Int) ^ (8 * w) * 1) % ((2 : Int) ^ (8 * w))
          = v % ((2 : Int) ^ (8 * w)) :=
        Int.add_mul_emod_self_left v ((2 : Int) ^ (8 * w)) 1
      rw [mul_one] at hrw
      rw [← hrw]
      apply Int.emod_eq_of_lt (by omega) (by omega)
    unfold bitsToInt intToBits
    rw [hmod]
    rw [if_neg (by omega)]
    have hc2 : ((2 : Int) ^ (8 * w)) = ((2 ^ (8 * w) : Nat) : Int) := by
      push_cast
      ring
    omega

/-- Any field supplied with at least `size` bytes decodes successfully to
its spec-side decoded value. -/
theorem unpack_ok_of_le (f : PValue) (data : List Nat) (le : Bool)
    (h : f.size ≤ data.length) :
    f.unpack data le = .ok (decodedOf f data le) := by
  cases f with
  | num t x =>
    simp only [PValue.size] at h
    simp [PValue.unpack, numUnpack, decodedOf, if_neg (by omega : ¬ data.length < t.sizeOf)]
  | block arr =>
    simp only [PValue.size] at h
    simp [PValue.unpack, decodedOf, if_neg (by omega : ¬ data.length < arr.length)]
  | flag b =>
    simp only [PValue.size, NumType.sizeOf] at h
    cases data with
    | nil => simp at h
    | cons a as => simp [PValue.unpack, numUnpack, decodedOf, NumType.sizeOf]

theorem sumSizes_nil : sumSizes [] = 0 := rfl

theorem sumSizes_cons (x : PValue) (rest : List PValue) :
    sumSizes (x :: rest) = x.size + sumSizes rest := by
  simp [sumSizes]

/-- Success case of the sequencer: with enough bytes for every field, the
call succeeds, each field is decoded from its own segment, and the buffer
is left holding the tail past the declared sizes. -/
theorem unpackSeq_ok_of_le (le : Bool) (buffer : List Nat) (fs : List PValue)
    (h : sumSizes fs ≤ buffer.length) :
    unpackSeq le buffer fs = .ok (decodeFields le buffer fs) (buffer.drop (sumSizes fs)) := by
  induction fs generalizing buffer with
  | nil => simp [unpackSeq, decodeFields, sumSizes]
  | cons x rest ih =>
    rw [sumSizes_cons] at h
    have hx : x.size ≤ buffer.length := by omega
    have htake : x.size ≤ (buffer.take x.size).length := by
      simp
      omega
    have hrest : sumSizes rest ≤ (buffer.drop x.size).length := by
      simp
      omega
    simp only [unpackSeq, if_pos (by omega : buffer.length ≥ x.size)]
    rw [unpack_ok_of_le x _ le htake, ih _ hrest]
    simp only [decodeFields, sumSizes_cons, List.drop_drop]

/-- Error case of the sequencer: if the fields before `f` all fit but the
remainder is shorter than `f.size`, the call short-circuits with a
`BufferLengthError` carrying `f.size` and the remaining length, leaves `f`
and every later field untouched, and leaves the buffer at the tail
remaining after the fields before `f` were consumed. -/
theorem unpackSeq_err_split (le : Bool) (buffer : List Nat)
    (pre : List PValue) (f : PValue) (post : List PValue)
    (h1 : sumSizes pre ≤ buffer.length)
    (h2 : buffer.length - sumSizes pre < f.size) :
    unpackSeq le buffer (pre ++ f :: post)
      = .err ⟨.BufferLengthError, errorData f.size (buffer.length - sumSizes pre)⟩
          (decodeFields le buffer pre ++ f :: post)
          (buffer.drop (sumSizes pre)) := by
  induction pre generalizing buffer with
  | nil =>
    rw [sumSizes_nil] at h2
    simp only [List.nil_append, decodeFields, sumSizes_nil, Nat.sub_zero, List.drop_zero]
    simp [unpackSeq, if_neg (by omega : ¬ buffer.length ≥ f.size)]
  | cons x pre' ih =>
    rw [sumSizes_cons] at h1 h2
    have hx : x.size ≤ buffer.length := by omega
    have htake : x.size ≤ (buffer.take x.size).length := by
      simp
      omega
    have h1' : sumSizes pre' ≤ (buffer.drop x.size).length := by
      simp
      omega
    have h2' : (buffer.drop x.size).length - sumSizes pre' < f.size := by
      simp
      omega
    have harg : (buffer.drop x.size).length - sumSizes pre'
        = buffer.length - (x.size + sumSizes pre') := by
      simp
      omega
    simp only [List.cons_append, unpackSeq, List.append_eq,
      if_pos (by omega : buffer.length ≥ x.size),
      unpack_ok_of_le x _ le htake, ih _ h1' h2', harg]
    simp only [decodeFields, sumSizes_cons, List.cons_append, List.drop_drop]

/-- With too few bytes overall, the sequencer returns a `PackableError`
(it neither succeeds nor panics). -/
theorem unpackSeq_err_of_lt (le : Bool) (buffer : List Nat) (fs : List PValue)
    (h : buffer.length < sumSizes fs) :
    ∃ e xs buf, unpackSeq le buffer fs = .err e xs buf := by
  induction fs generalizing buffer with
  | nil =>
    rw [sumSizes_nil] at h
    omega
  | cons x rest ih =>
    rw [sumSizes_cons] at h
    by_cases hx : buffer.length < x.size
    · exact ⟨⟨.BufferLengthError, errorData x.size buffer.length⟩, x :: rest, buffer,
        by simp [unpackSeq, if_neg (by omega : ¬ buffer.length ≥ x.size)]⟩
    · have htake : x.size ≤ (buffer.take x.size).length := by
        simp
        omega
      have hrest : (buffer.drop x.size).length < sumSizes rest := by
        simp
        omega
      obtain ⟨e, xs, buf, heq⟩ := ih _ hrest
      exact ⟨e, decodedOf x (buffer.take x.size) le :: xs, buf,
        by simp only [unpackSeq, if_pos (by omega : buffer.length ≥ x.size),
             unpack_ok_of_le x _ le htake, heq]⟩

theorem Flag.get_eq_testBit (f : Flag) (id : Nat) :
    f.get id = f.base.testBit id := by
  unfold Flag.get
  rw [Nat.shiftLeft_eq, one_mul, Nat.and_two_pow]
  cases h : f.base.testBit id <;> simp [h, Nat.pos_iff_ne_zero, Nat.pow_eq_zero]

theorem testBit_255 (j : Nat) (h : j < 8) : Nat.testBit 255 j = true := by
  have h255 : (255 : Nat) = 2 ^ 8 - 1 := by norm_num
  rw [h255, Nat.testBit_two_pow_sub_one]
  simp [h]

theorem Flag.get_set_self (f : Flag) (i : Nat) (v : Bool) (hi : i < 8) :
    (f.set i v).get i = v := by
  cases v with
  | true =>
    rw [Flag.get_eq_testBit]
    unfold Flag.set
    simp only [if_pos]
    rw [Nat.shiftLeft_eq, one_mul, Nat.testBit_lor, Nat.testBit_two_pow_self]
    simp
  | false =>
    rw [Flag.get_eq_testBit]
    unfold Flag.set
    simp only [Bool.false_eq_true, if_neg, if_false]
    rw [Nat.shiftLeft_eq, one_mul, Nat.testBit_land, Nat.testBit_xor,
      testBit_255 i hi, Nat.testBit_two_pow_self]
    simp

theorem Flag.get_set_of_ne (f : Flag) (i j : Nat) (v : Bool)
    (hj : j < 8) (hne : j ≠ i) :
    (f.set i v).get j = f.get j := by
  cases v with
  | true =>
    rw [Flag.get_eq_testBit, Flag.get_eq_testBit]
    unfold Flag.set
    simp only [if_pos]
    rw [Nat.shiftLeft_eq, one_mul, Nat.testBit_lor,
      Nat.testBit_two_pow_of_ne (fun h => hne h.symm)]
    simp
  | false =>
    rw [Flag.get_eq_testBit, Flag.get_eq_testBit]
    unfold Flag.set
    simp only [Bool.false_eq_true, if_neg, if_false]
    rw [Nat.shiftLeft_eq, one_mul, Nat.testBit_land, Nat.testBit_xor,
      testBit_255 j hj, Nat.testBit_two_pow_of_ne (fun h => hne h.symm)]
    simp

theorem Flag.get_default (j : Nat) : Flag.default.get j = false := by
  simp [Flag.get, Flag.default]

theorem foldl_pack_eq (le : Bool) (xs : List PValue) (init : List Nat) :
    xs.foldl (fun acc x => acc ++ x.pack le) init
      = init ++ (xs.map (fun x => x.pack le)).flatten := by
  induction xs generalizing init with
  | nil => simp
  | cons x rest ih =>
    simp only [List.foldl_cons, List.map_cons, List.flatten_cons, ih]
    simp [List.append_assoc]

/-- C1: for every supported primitive numeric type, every value of that
type (bit patterns for the type's values; for signed integers also every
`Int` in the representable range, via its two's-complement pattern) and
both byte-order flags, unpacking the bytes produced by packing the value
under that order yields the value again. Float values are carried as their
IEEE bit patterns, which is exactly what `to_le_bytes` / `from_le_bytes`
serialize, so equality is bit-pattern equality. -/
theorem numeric_roundtrip (t : NumType) (x bits : Nat) (le : Bool)
    (h : bits < 2 ^ (8 * t.sizeOf)) :
    PValue.unpack (.num t x) (PValue.pack (.num t bits) le) le = .ok (.num t bits)
    ∧ (∀ v : Int, t.signed = true →
        -(2 ^ (8 * t.sizeOf - 1)) ≤ v → v < 2 ^ (8 * t.sizeOf - 1) →
        PValue.unpack (.num t x) (PValue.pack (.num t (intToBits t.sizeOf v)) le) le
          = .ok (.num t (intToBits t.sizeOf v))
        ∧ bitsToInt t.sizeOf (intToBits t.sizeOf v) = v) := by
  have hpat : ∀ b : Nat, b < 2 ^ (8 * t.sizeOf) →
      PValue.unpack (.num t x) (PValue.pack (.num t b) le) le = .ok (.num t b) := by
    intro b hb
    simp [PValue.pack, PValue.unpack, numUnpack_numPack t b le hb]
  refine ⟨hpat bits h, ?_⟩
  intro v _ h1 h2
  have hw : 0 < t.sizeOf := by cases t <;> simp [NumType.sizeOf]
  exact ⟨hpat _ (intToBits_lt t.sizeOf v), bitsToInt_intToBits t.sizeOf v hw h1 h2⟩

theorem numeric_roundtrip_witness :
    PValue.unpack (.num .u16 0) (PValue.pack (.num .u16 42) true) true
      = .ok (.num .u16 42)
    ∧ PValue.unpack (.num .i16 0) (PValue.pack (.num .i16 65494) false) false
      = .ok (.num .i16 65494)
    ∧ bitsToInt 2 65494 = -42 := by
  have h1 := (numeric_roundtrip .u16 0 42 true (by decide)).1
  have h2 := (numeric_roundtrip .i16 0 65494 false (by decide)).1
  exact ⟨h1, h2, by decide⟩

/-- C2: if the fields before `f` all fit in the buffer but the remainder
is shorter than `f`'s declared size, the unpack sequencer fails
immediately with a `BufferLengthError` whose diagnostic carries the
expected size and the actual remaining length; `f` and every field after
it appear untouched in the final field state (no field past the failure
point is decoded). -/
theorem unpackSeq_short_circuit (le : Bool) (buffer : List Nat)
    (pre : List PValue) (f : PValue) (post : List PValue)
    (h1 : sumSizes pre ≤ buffer.length)
    (h2 : buffer.length - sumSizes pre < f.size) :
    unpackSeq le buffer (pre ++ f :: post)
      = .err ⟨.BufferLengthError, errorData f.size (buffer.length - sumSizes pre)⟩
          (decodeFields le buffer pre ++ f :: post)
          (buffer.drop (sumSizes pre)) :=
  unpackSeq_err_split le buffer pre f post h1 h2

theorem unpackSeq_short_circuit_witness :
    unpackSeq true [7, 8] [.num .u8 0, .num .u16 0]
      = .err ⟨.BufferLengthError, errorData 2 1⟩ [.num .u8 7, .num .u16 0] [8] := by
  have h := unpackSeq_short_circuit true [7, 8] [.num .u8 0] (.num .u16 0) []
    (by decide) (by decide)
  exact h.trans (by decide)

/-- C3 counterexample: decoding a `[u8; 1]` block from an empty buffer
panics (slice index out of range); it does not return an
insufficient-buffer `PackableError`. -/
theorem block_unpack_short_traps :
    PValue.unpack (.block [0]) [] true = .panic
    ∧ Outcome.isErr (PValue.unpack (.block [0]) [] true) = false := by decide

/-- C3 (amended): decoding a `[u8; N]` block from a buffer shorter than
`N` bytes traps (panics on the out-of-range slice index) instead of
returning an error; with at least `N` bytes it copies the first `N` buffer
bytes into the block element-wise, overwriting all positions, and
succeeds. -/
theorem block_unpack_behavior (arr data : List Nat) (le : Bool) :
    (data.length < arr.length → PValue.unpack (.block arr) data le = .panic)
    ∧ (arr.length ≤ data.length →
        PValue.unpack (.block arr) data le = .ok (.block (data.take arr.length))
        ∧ (data.take arr.length).length = arr.length) := by
  constructor
  · intro h
    simp [PValue.unpack, if_pos h]
  · intro h
    refine ⟨?_, by simp; omega⟩
    simp [PValue.unpack, if_neg (by omega : ¬ data.length < arr.length)]

theorem block_unpack_behavior_witness :
    PValue.unpack (.block [0, 0]) [9, 4, 5] true = .ok (.block [9, 4]) := by
  have h := ((block_unpack_behavior [0, 0] [9, 4, 5] true).2 (by decide)).1
  exact h.trans (by decide)

/-- C4 counterexample: a numeric decode invoked directly with a buffer
shorter than `size()` panics (slice index out of range); it does not
return a `TryFromSliceError` (nor any other `PackableError`). -/
theorem numeric_unpack_short_traps :
    PValue.unpack (.num .u16 0) [5] true = .panic
    ∧ Outcome.isErr (PValue.unpack (.num .u16 0) [5] true) = false := by decide

/-- C4 (amended): a numeric decode invoked directly with a buffer shorter
than the type's `size()` traps (panics on the out-of-range slice
`data[0..size]`) rather than returning a `TryFromSliceError` — the
`try_into` conversion always receives a slice of exactly `size()` bytes,
so its error path is unreachable; with a buffer of at least `size()`
bytes it reinterprets exactly the first `size()` bytes under the requested
order and its result does not depend on any byte past them. -/
theorem numeric_unpack_behavior (t : NumType) (x : Nat) (data : List Nat) (le : Bool) :
    (data.length < t.sizeOf → PValue.unpack (.num t x) data le = .panic)
    ∧ (t.sizeOf ≤ data.length →
        PValue.unpack (.num t x) data le = .ok (.num t (readNum t data le))
        ∧ readNum t data le = readNum t (data.take t.sizeOf) le) := by
  constructor
  · intro h
    simp [PValue.unpack, numUnpack, if_pos h]
  · intro h
    constructor
    · simp [PValue.unpack, numUnpack, if_neg (by omega : ¬ data.length < t.sizeOf)]
    · unfold readNum
      simp [List.take_take]

theorem numeric_unpack_behavior_witness :
    PValue.unpack (.num .u16 0) [1, 2, 3] true = .ok (.num .u16 513)
    ∧ readNum .u16 [1, 2, 3] true = readNum .u16 [1, 2] true := by
  have h := (numeric_unpack_behavior .u16 0 [1, 2, 3] true).2 (by decide)
  exact ⟨h.1.trans (by decide), h.2.trans (by decide)⟩

/-- C5: the unpack sequencer succeeds exactly when the buffer covers every
field's declared size (each field's decode then succeeds), and on success
the caller's buffer is left holding exactly the tail of the original
buffer past the sum of the field sizes, each field having been decoded
from its own size-determined segment in order. -/
theorem unpackSeq_correct (le : Bool) (buffer : List Nat) (fields : List PValue) :
    ((∃ fs buf, unpackSeq le buffer fields = .ok fs buf)
      ↔ sumSizes fields ≤ buffer.length)
    ∧ (sumSizes fields ≤ buffer.length →
        unpackSeq le buffer fields
          = .ok (decodeFields le buffer fields) (buffer.drop (sumSizes fields))) := by
  constructor
  · constructor
    · rintro ⟨fs, buf, heq⟩
      by_contra hlt
      push_neg at hlt
      obtain ⟨e, xs, b2, herr⟩ := unpackSeq_err_of_lt le buffer fields hlt
      rw [herr] at heq
      exact SeqResult.noConfusion heq
    · intro hle
      exact ⟨_, _, unpackSeq_ok_of_le le buffer fields hle⟩
  · intro hle
    exact unpackSeq_ok_of_le le buffer fields hle

theorem unpackSeq_correct_witness :
    unpackSeq true [1, 2, 3] [.num .u8 0, .num .u16 0]
      = .ok [.num .u8 1, .num .u16 770] [] := by
  have h := (unpackSeq_correct true [1, 2, 3] [.num .u8 0, .num .u16 0]).2 (by decide)
  exact h.trans (by decide)

/-- C6: the pack sequencer returns exactly the concatenation of each
value's individual encoding in argument order (no padding, prefixes or
alignment — nothing but the encodings appears in the output); it is a
total function of the values. -/
theorem packSeq_concat (le : Bool) (xs : List PValue) :
    packSeq le xs = (xs.map (fun x => x.pack le)).flatten := by
  rw [packSeq, foldl_pack_eq]
  simp

/-- C7: for a `Flag` whose base is a byte and bit ids `i, j < 8`: after
`set(i, v)`, `get(i)` returns `v`; for `j ≠ i`, `get(j)` is unchanged by
the set; and the default-constructed `Flag` has all bits clear. -/
theorem flag_bit_independence (f : Flag) (i j : Nat) (v : Bool)
    (_hb : f.base < 256) (hi : i < 8) (hj : j < 8) :
    (f.set i v).get i = v
    ∧ (j ≠ i → (f.set i v).get j = f.get j)
    ∧ Flag.default.get j = false :=
  ⟨Flag.get_set_self f i v hi,
   fun hne => Flag.get_set_of_ne f i j v hj hne,
   Flag.get_default j⟩

theorem flag_bit_independence_witness :
    ((Flag.mk 5).set 3 true).get 3 = true
    ∧ ((Flag.mk 5).set 3 true).get 0 = (Flag.mk 5).get 0
    ∧ Flag.default.get 0 = false := by
  have h := flag_bit_independence (Flag.mk 5) 3 0 true (by decide) (by decide) (by decide)
  exact ⟨h.1, h.2.1 (by decide), h.2.2⟩

/-- C8: a numeric type's `size()` is the same for all values of the type,
equals `mem::size_of` for the type (one of 1, 2, 4, 8 or 16 bytes), and
for either byte order the encoding produced by `pack` has exactly `size()`
bytes. -/
theorem numeric_size_deterministic (t : NumType) (b b' : Nat) (le : Bool) :
    PValue.size (.num t b) = PValue.size (.num t b')
    ∧ PValue.size (.num t b) = t.sizeOf
    ∧ (t.sizeOf = 1 ∨ t.sizeOf = 2 ∨ t.sizeOf = 4 ∨ t.sizeOf = 8 ∨ t.sizeOf = 16)
    ∧ (PValue.pack (.num t b) le).length = PValue.size (.num t b) := by
  refine ⟨rfl, rfl, ?_, ?_⟩
  · cases t <;> simp [NumType.sizeOf]
  · simp [PValue.pack, PValue.size, numPack_length]

/-- C9: a `[u8; N]` block's encoding is a verbatim copy of its `N` bytes,
identical for both values of the `little_endian` flag. -/
theorem block_pack_verbatim (arr : List Nat) (le : Bool) :
    PValue.pack (.block arr) le = arr
    ∧ PValue.pack (.block arr) true = PValue.pack (.block arr) false :=
  ⟨rfl, rfl⟩

/-- C10: when the sequencer fails the length check at field `f`, the
caller's buffer is left in a deterministic state: exactly the tail
remaining after the fields before `f` were decoded — the same buffer state
an unpack of those fields alone would leave behind. -/
theorem unpackSeq_fail_buffer_state (le : Bool) (buffer : List Nat)
    (pre : List PValue) (f : PValue) (post : List PValue)
    (h1 : sumSizes pre ≤ buffer.length)
    (h2 : buffer.length - sumSizes pre < f.size) :
    (unpackSeq le buffer (pre ++ f :: post)).remBuffer = buffer.drop (sumSizes pre)
    ∧ unpackSeq le buffer pre
        = .ok (decodeFields le buffer pre) (buffer.drop (sumSizes pre)) := by
  refine ⟨?_, unpackSeq_ok_of_le le buffer pre h1⟩
  rw [unpackSeq_err_split le buffer pre f post h1 h2]
  rfl

theorem unpackSeq_fail_buffer_state_witness :
    (unpackSeq false [1, 2] [.num .u8 0, .num .u32 0]).remBuffer = [2]
    ∧ unpackSeq false [1, 2] [.num .u8 0] = .ok [.num .u8 1] [2] := by
  have h := unpackSeq_fail_buffer_state false [1, 2] [.num .u8 0] (.num .u32 0) []
    (by decide) (by decide)
  exact ⟨h.1.trans (by decide), h.2.trans (by decide)⟩

end Packable
